import Mathlib

/-!
Shallow embedding of the token-swap / wallet-balance pipeline.

Source files embedded here:
* `src/problem3/refactored-code.tsx` — the wallet-balance pipeline
  (`BLOCKCHAIN_PRIORITIES`, `getPriority`, `formattedBalances`);
* `src/unnamed/part_001` (SwapForm) — the price-feed normalizer inside
  `fetchPrices`, and `calculateExchange`;
* `src/unnamed/part_000` (CurrencyInput) — `handleAmountChange`.

JavaScript numbers are modelled as rationals (`ℚ`), the decimal data model of
the specification; JS string-keyed objects are modelled as association lists
with insertion-order update-in-place semantics, matching JS object key order.
-/

namespace SwapRepo

/-! ### Kernel-computable arithmetic on `ℚ`

The bundled `Rat.mul`/`Rat.add`/`Rat.div` are `@[irreducible]`, so concrete
pipeline runs could not be checked by `decide`.  The wrappers below compute
the same operations through `mkRat`; the `_eq` bridge lemmas prove they agree
with the field operations of `ℚ`, so every use of them in a definition is
exactly the source's arithmetic. -/

/-- Computable multiplication on `ℚ`: agrees with `*` (see `qmul_eq`). -/
def qmul (a b : ℚ) : ℚ := mkRat (a.num * b.num) (a.den * b.den)

/-- Computable addition on `ℚ`: agrees with `+` (see `qadd_eq`). -/
def qadd (a b : ℚ) : ℚ := mkRat (a.num * b.den + a.den * b.num) (a.den * b.den)

/-- Computable division on `ℚ`: agrees with `/` (see `qdiv_eq`);
division by zero yields zero, the convention of `ℚ` itself. -/
def qdiv (a b : ℚ) : ℚ :=
  if 0 ≤ b.num then mkRat (a.num * b.den) (a.den * b.num.toNat)
  else mkRat (-(a.num * b.den)) (a.den * (-b.num).toNat)

theorem qmul_eq (a b : ℚ) : qmul a b = a * b := by
  rw [qmul, Rat.mkRat_eq_div]
  push_cast
  conv_rhs => rw [← Rat.num_div_den a, ← Rat.num_div_den b]
  rw [div_mul_div_comm]

theorem qadd_eq (a b : ℚ) : qadd a b = a + b := by
  have ha : ((a.den : ℚ)) ≠ 0 := Nat.cast_ne_zero.mpr a.den_nz
  have hb : ((b.den : ℚ)) ≠ 0 := Nat.cast_ne_zero.mpr b.den_nz
  rw [qadd, Rat.mkRat_eq_div]
  push_cast
  conv_rhs => rw [← Rat.num_div_den a, ← Rat.num_div_den b]
  rw [div_add_div _ _ ha hb]

theorem qdiv_eq (a b : ℚ) : qdiv a b = a / b := by
  rcases eq_or_ne b 0 with rfl | hb
  · rw [qdiv]
    norm_num [Rat.mkRat_eq_div]
  · have key : a / b = ((a.num : ℚ) * b.den) / ((a.den : ℚ) * b.num) := by
      rw [div_eq_mul_inv]
      conv_lhs => rw [← Rat.num_div_den a, ← Rat.num_div_den b]
      rw [inv_div, div_mul_div_comm]
    rw [qdiv, key]
    split
    · rename_i hpos
      have h3 : ((b.num.toNat : ℕ) : ℚ) = (b.num : ℚ) := by
        rw [← Int.cast_natCast, Int.toNat_of_nonneg hpos]
      rw [Rat.mkRat_eq_div, Int.cast_mul, Int.cast_natCast, Nat.cast_mul, h3]
    · rename_i hneg
      have h4 : (((-b.num).toNat : ℕ) : ℚ) = -(b.num : ℚ) := by
        rw [← Int.cast_natCast, Int.toNat_of_nonneg (neg_nonneg.mpr (le_of_not_le hneg)),
          Int.cast_neg]
      rw [Rat.mkRat_eq_div, Int.cast_neg, Int.cast_mul, Int.cast_natCast, Nat.cast_mul, h4,
        mul_neg, neg_div_neg_eq]

/-! ### Data model: wallet balances (`src/problem3/refactored-code.tsx`) -/

/-- `interface WalletBalance { currency; amount; blockchain }`.  The
`blockchain` field is a string at runtime (the TS enum erases to its string
value, and `getPriority` defends against unknown keys with `?? -99`). -/
structure WalletBalance where
  currency : String
  amount : ℚ
  blockchain : String
deriving DecidableEq

/-- A balance with the precedence attached by the first `.map` stage of
`formattedBalances` (`{ ...balance, priority: getPriority(...) }`). -/
structure RankedBalance where
  currency : String
  amount : ℚ
  blockchain : String
  priority : Int
deriving DecidableEq

/-- A record produced by the final `.map` stage of `formattedBalances`
(`{ ...balance, formatted, usdValue }`). -/
structure FormattedBalance where
  currency : String
  amount : ℚ
  blockchain : String
  priority : Int
  formatted : String
  usdValue : ℚ
deriving DecidableEq

/-- `const BLOCKCHAIN_PRIORITIES: Record<Blockchain, number> = { Osmosis: 100,
Ethereum: 50, Arbitrum: 30, Zilliqa: 20, Neo: 20 }`. -/
def BLOCKCHAIN_PRIORITIES : List (String × Int) :=
  [("Osmosis", 100), ("Ethereum", 50), ("Arbitrum", 30), ("Zilliqa", 20), ("Neo", 20)]

/-- `const getPriority = (blockchain) => BLOCKCHAIN_PRIORITIES[blockchain] ?? -99`. -/
def getPriority (blockchain : String) : Int :=
  (BLOCKCHAIN_PRIORITIES.lookup blockchain).getD (-99)

/-! ### `Number.prototype.toFixed` on the rational model

`x.toFixed(k)` renders `x` with exactly `k` fractional digits, rounding to the
nearest multiple of `10^(-k)` (ties away from zero for the magnitude). -/

/-- The `k` decimal digit characters of `n mod 10^k`, most significant first. -/
def fracDigitChars (k n : Nat) : List Char :=
  (List.range k).reverse.map fun i => Nat.digitChar (n / 10 ^ i % 10)

/-- `toFixed k` for a nonnegative rational: round `q * 10^k` to the nearest
integer (ties up) and print integer part, a point, and `k` digits. -/
def toFixedPos (k : Nat) (q : ℚ) : String :=
  let n : Nat := ((qadd (qmul q (mkRat ((10 ^ k : Nat) : Int) 1)) (mkRat 1 2)).floor).toNat
  Nat.repr (n / 10 ^ k) ++ "." ++ String.mk (fracDigitChars k (n % 10 ^ k))

/-- `x.toFixed(k)`; negative inputs print a sign before the magnitude. -/
def toFixed (k : Nat) (q : ℚ) : String :=
  if q < 0 then "-" ++ toFixedPos k (-q) else toFixedPos k q

/-- `balance.amount.toFixed(8)` as used by `formattedBalances`. -/
def toFixed8 (q : ℚ) : String := toFixed 8 q

/-- `toValue.toFixed(6)` as used by `calculateExchange`. -/
def toFixed6 (q : ℚ) : String := toFixed 6 q

/-! ### The `formattedBalances` chain: map ∘ filter ∘ sort ∘ map -/

/-- First stage: `.map((balance) => ({ ...balance, priority:
getPriority(balance.blockchain) }))`. -/
def rankStage (balances : List WalletBalance) : List RankedBalance :=
  balances.map fun b => ⟨b.currency, b.amount, b.blockchain, getPriority b.blockchain⟩

/-- Second stage: `.filter((balance) => balance.priority > -99 &&
balance.amount > 0)`. -/
def filterStage (l : List RankedBalance) : List RankedBalance :=
  l.filter fun b => decide (-99 < b.priority) && decide (0 < b.amount)

/-- The comparator ordering of `.sort((a, b) => b.priority - a.priority)`:
`a` may come before `b` exactly when the comparator is nonpositive. -/
def priorityGE (a b : RankedBalance) : Prop := b.priority ≤ a.priority

instance : DecidableRel priorityGE := fun _ _ => inferInstanceAs (Decidable (_ ≤ _))

instance : IsTotal RankedBalance priorityGE := ⟨fun a b => le_total b.priority a.priority⟩

instance : IsTrans RankedBalance priorityGE := ⟨fun _ _ _ h1 h2 => le_trans h2 h1⟩

/-- Third stage: `.sort((a, b) => b.priority - a.priority)`.  JS `Array.sort`
is a stable sort; a stable insertion sort on the comparator's preorder is
extensionally the same function. -/
def sortStage (l : List RankedBalance) : List RankedBalance :=
  List.insertionSort priorityGE l

/-- Last stage, one record: `{ ...balance, formatted:
balance.amount.toFixed(8), usdValue: (prices[balance.currency] ?? 0) *
balance.amount }`.  The price table is an association list keyed by currency. -/
def formatOne (prices : List (String × ℚ)) (b : RankedBalance) : FormattedBalance :=
  ⟨b.currency, b.amount, b.blockchain, b.priority,
    toFixed8 b.amount, qmul ((prices.lookup b.currency).getD 0) b.amount⟩

/-- Last stage: `.map((balance) => ({ ...balance, formatted, usdValue }))`. -/
def formatStage (prices : List (String × ℚ)) (l : List RankedBalance) : List FormattedBalance :=
  l.map (formatOne prices)

/-- The whole `formattedBalances` memo body. -/
def formattedBalances (balances : List WalletBalance) (prices : List (String × ℚ)) :
    List FormattedBalance :=
  formatStage prices (sortStage (filterStage (rankStage balances)))

/-! ### Claim theorems for the wallet pipeline -/

/-- C7: `getPriority` is a pure function of the blockchain key alone, mapping
Osmosis to 100, Ethereum to 50, Arbitrum to 30, Zilliqa to 20, Neo to 20, and
every other key to the sentinel `-99`. -/
theorem C7_priority_table :
    getPriority "Osmosis" = 100 ∧ getPriority "Ethereum" = 50 ∧
    getPriority "Arbitrum" = 30 ∧ getPriority "Zilliqa" = 20 ∧
    getPriority "Neo" = 20 ∧
    ∀ s : String, s ∉ (["Osmosis", "Ethereum", "Arbitrum", "Zilliqa", "Neo"] : List String) →
      getPriority s = -99 := by
  refine ⟨by decide, by decide, by decide, by decide, by decide, ?_⟩
  intro s hs
  simp only [List.mem_cons, not_or] at hs
  obtain ⟨h1, h2, h3, h4, h5, -⟩ := hs
  have e1 : (s == "Osmosis") = false := beq_eq_false_iff_ne.mpr h1
  have e2 : (s == "Ethereum") = false := beq_eq_false_iff_ne.mpr h2
  have e3 : (s == "Arbitrum") = false := beq_eq_false_iff_ne.mpr h3
  have e4 : (s == "Zilliqa") = false := beq_eq_false_iff_ne.mpr h4
  have e5 : (s == "Neo") = false := beq_eq_false_iff_ne.mpr h5
  simp [getPriority, BLOCKCHAIN_PRIORITIES, List.lookup, e1, e2, e3, e4, e5]

/-- Witness for C7 at the concrete unranked key `"Unknown"`. -/
theorem C7_priority_table_witness : getPriority "Unknown" = -99 :=
  C7_priority_table.2.2.2.2.2 "Unknown" (by decide)

/-- C1: the ranker/filter stage keeps a record iff its computed precedence is
greater than `-99` and its amount is greater than `0`; on the balances
`[{Ethereum, 5}, {Unknown, 5}, {Ethereum, -1}]` the surviving set is exactly
the single Ethereum record with amount 5. -/
theorem C1_inclusion_rule :
    (∀ (balances : List WalletBalance) (r : RankedBalance),
      r ∈ filterStage (rankStage balances) ↔
        r ∈ rankStage balances ∧ -99 < r.priority ∧ 0 < r.amount) ∧
    filterStage (rankStage
        [⟨"ETH", 5, "Ethereum"⟩, ⟨"UNK", 5, "Unknown"⟩, ⟨"ETH", -1, "Ethereum"⟩]) =
      [⟨"ETH", 5, "Ethereum", 50⟩] := by
  constructor
  · intro balances r
    simp [filterStage, List.mem_filter, and_assoc]
  · decide

/-- Witness for C1: the surviving Ethereum record is kept by the inclusion
rule at a concrete input. -/
theorem C1_inclusion_rule_witness :
    (⟨"ETH", 5, "Ethereum", 50⟩ : RankedBalance) ∈
      filterStage (rankStage [⟨"ETH", 5, "Ethereum"⟩]) :=
  (C1_inclusion_rule.1 [⟨"ETH", 5, "Ethereum"⟩] ⟨"ETH", 5, "Ethereum", 50⟩).mpr
    ⟨by decide, by decide, by decide⟩

/-- C3: the sorter outputs surviving records in descending order of
precedence (every earlier record's priority is at least every later one's),
it only permutes its input, and — JS `Array.sort` being stable — records of
equal precedence keep a fixed, reproducible relative order (their input
order).  For positive-amount balances on Ethereum, Arbitrum and Osmosis the
output order is exactly Osmosis, Ethereum, Arbitrum, and the equal-precedence
pair Zilliqa/Neo keeps its input order on identical input. -/
theorem C3_sort_descending :
    (∀ l : List RankedBalance,
        (sortStage l).Pairwise priorityGE ∧ (sortStage l).Perm l) ∧
    (sortStage (filterStage (rankStage
        [⟨"ETH", 2, "Ethereum"⟩, ⟨"ARB", 3, "Arbitrum"⟩, ⟨"OSMO", 1, "Osmosis"⟩]))).map
        (fun b => b.blockchain) = ["Osmosis", "Ethereum", "Arbitrum"] ∧
    (sortStage [⟨"ZIL", 1, "Zilliqa", 20⟩, ⟨"NEO", 1, "Neo", 20⟩]).map
        (fun b => b.blockchain) = ["Zilliqa", "Neo"] ∧
    (sortStage [⟨"NEO", 1, "Neo", 20⟩, ⟨"ZIL", 1, "Zilliqa", 20⟩]).map
        (fun b => b.blockchain) = ["Neo", "Zilliqa"] := by
  refine ⟨fun l => ⟨?_, ?_⟩, by decide, by decide, by decide⟩
  · exact List.sorted_insertionSort priorityGE l
  · exact List.perm_insertionSort priorityGE l

/-- Witness for C3 at a concrete two-record list. -/
theorem C3_sort_descending_witness :
    (sortStage [⟨"ETH", 2, "Ethereum", 50⟩, ⟨"OSMO", 1, "Osmosis", 100⟩]).Pairwise priorityGE ∧
    (sortStage [⟨"ETH", 2, "Ethereum", 50⟩, ⟨"OSMO", 1, "Osmosis", 100⟩]).Perm
      [⟨"ETH", 2, "Ethereum", 50⟩, ⟨"OSMO", 1, "Osmosis", 100⟩] :=
  C3_sort_descending.1 [⟨"ETH", 2, "Ethereum", 50⟩, ⟨"OSMO", 1, "Osmosis", 100⟩]

/-- C5: a record whose currency key is absent from the price table is still
present in the formatter's output and gets `convertedValue = 0`; a record
whose key is present gets `convertedValue = amount * price`. -/
theorem C5_missing_price_defaults :
    ∀ (prices : List (String × ℚ)) (l : List RankedBalance) (b : RankedBalance), b ∈ l →
      formatOne prices b ∈ formatStage prices l ∧
      (prices.lookup b.currency = none → (formatOne prices b).usdValue = 0) ∧
      (∀ p : ℚ, prices.lookup b.currency = some p →
        (formatOne prices b).usdValue = b.amount * p) := by
  intro prices l b hb
  refine ⟨List.mem_map_of_mem _ hb, ?_, ?_⟩
  · intro hnone
    simp [formatOne, hnone, qmul_eq]
  · intro p hp
    simp [formatOne, hp, qmul_eq, mul_comm]

/-- Witness for C5: missing key yields 0, present key yields amount × price. -/
theorem C5_missing_price_defaults_witness :
    (formatOne [("BTC", 3)] ⟨"ETH", 2, "Ethereum", 50⟩).usdValue = 0 ∧
    (formatOne [("BTC", 3)] ⟨"BTC", 2, "Ethereum", 50⟩).usdValue = 2 * 3 :=
  ⟨(C5_missing_price_defaults [("BTC", 3)] [⟨"ETH", 2, "Ethereum", 50⟩] _
      (by decide)).2.1 (by decide),
   (C5_missing_price_defaults [("BTC", 3)] [⟨"BTC", 2, "Ethereum", 50⟩] _
      (by decide)).2.2 3 (by decide)⟩

/-! ### C6: fixed 8-digit formatting -/

/-- `Nat.digitChar` of a digit value is a decimal digit character. -/
theorem digitChar_isDigit (d : Nat) (h : d < 10) : (Nat.digitChar d).isDigit = true := by
  interval_cases d <;> decide

/-- The fractional block has exactly `k` characters, all decimal digits. -/
theorem fracDigitChars_spec (k n : Nat) :
    (fracDigitChars k n).length = k ∧ ∀ c ∈ fracDigitChars k n, c.isDigit = true := by
  constructor
  · simp [fracDigitChars]
  · intro c hc
    simp only [fracDigitChars, List.mem_map] at hc
    obtain ⟨i, -, rfl⟩ := hc
    exact digitChar_isDigit _ (Nat.mod_lt _ (by decide))

/-- Every output of `toFixed k` splits as an integer part, a decimal point,
and exactly `k` digit characters. -/
theorem toFixed_shape (k : Nat) (q : ℚ) :
    ∃ a b : String, toFixed k q = a ++ "." ++ b ∧ b.length = k ∧
      ∀ c ∈ b.toList, c.isDigit = true := by
  have hshape : ∀ r : ℚ, ∃ a b : String, toFixedPos k r = a ++ "." ++ b ∧ b.length = k ∧
      ∀ c ∈ b.toList, c.isDigit = true := by
    intro r
    refine ⟨Nat.repr _, String.mk (fracDigitChars k _), rfl, ?_, ?_⟩
    · show (fracDigitChars k _).length = k
      exact (fracDigitChars_spec k _).1
    · intro c hc
      exact (fracDigitChars_spec k _).2 c hc
  unfold toFixed
  split
  · obtain ⟨a, b, hab, hlen, hdig⟩ := hshape (-q)
    refine ⟨"-" ++ a, b, ?_, hlen, hdig⟩
    rw [hab]
    simp only [String.append_assoc]
  · exact hshape q

/-- C6: every record the formatter outputs carries `formatted` as a
fixed-point decimal string with exactly 8 fractional digits; in particular
amount `5.1` formats to `"5.10000000"`. -/
theorem C6_eight_fractional_digits :
    (∀ (balances : List WalletBalance) (prices : List (String × ℚ)),
        ∀ r ∈ formattedBalances balances prices,
          ∃ a b : String, r.formatted = a ++ "." ++ b ∧ b.length = 8 ∧
            ∀ c ∈ b.toList, c.isDigit = true) ∧
    toFixed8 (51 / 10) = "5.10000000" := by
  have hq : (51 / 10 : ℚ) = mkRat 51 10 := by rw [Rat.mkRat_eq_div]; norm_num
  refine ⟨?_, by rw [hq]; decide⟩
  intro balances prices r hr
  simp only [formattedBalances, formatStage, List.mem_map] at hr
  obtain ⟨b, -, rfl⟩ := hr
  exact toFixed_shape 8 b.amount

/-- Witness for C6: the shape of a concretely formatted record. -/
theorem C6_eight_fractional_digits_witness :
    ∃ a b : String,
      (formatOne [] ⟨"ETH", mkRat 51 10, "Ethereum", 50⟩).formatted = a ++ "." ++ b ∧
        b.length = 8 ∧ ∀ c ∈ b.toList, c.isDigit = true :=
  C6_eight_fractional_digits.1 [⟨"ETH", mkRat 51 10, "Ethereum"⟩] []
    (formatOne [] ⟨"ETH", mkRat 51 10, "Ethereum", 50⟩) (by decide)

/-! ### The price-feed normalizer (`fetchPrices` in `src/unnamed/part_001`)

```js
data.forEach((item) => {
  if (item.price && parseFloat(item.price) > 0) {
    const key = item.currency;
    if (!priceMap[key] || new Date(item.date) > new Date(priceMap[key].date)) {
      priceMap[key] = item;
    }
  }
});
```
`priceMap` is a plain JS object: looking a key up scans declared keys,
assigning an existing key replaces its value in place, assigning a new key
appends it; `Object.values` then iterates in that key order.  We model it as
an association list with exactly those operations. -/

/-- A raw feed record `{currency, price, date}`.  `price` is the
`parseFloat` result of the feed's price string (`none` for an absent, empty
or unparsable price, in which case `item.price && parseFloat(item.price) > 0`
is falsy); `date` is the `new Date(...)` timestamp. -/
structure RawObservation where
  currency : String
  price : Option ℚ
  date : ℤ
deriving DecidableEq

/-- The guard `item.price && parseFloat(item.price) > 0`. -/
def isValidObs (i : RawObservation) : Bool :=
  match i.price with
  | some p => decide (0 < p)
  | none => false

/-- The JS object `priceMap`, as an insertion-ordered association list. -/
abbrev PriceMap := List (String × RawObservation)

/-- `priceMap[key]` (JS object property read). -/
def getKey : PriceMap → String → Option RawObservation
  | [], _ => none
  | (k', v) :: rest, k => if k' = k then some v else getKey rest k

/-- `priceMap[key] = item` (JS object property write: replaces in place an
existing key, appends a new one). -/
def setKey : PriceMap → String → RawObservation → PriceMap
  | [], k, v => [(k, v)]
  | (k', v') :: rest, k, v => if k' = k then (k, v) :: rest else (k', v') :: setKey rest k v

/-- One iteration of the `data.forEach` body. -/
def normStep (m : PriceMap) (item : RawObservation) : PriceMap :=
  if isValidObs item then
    match getKey m item.currency with
    | none => setKey m item.currency item
    | some prev => if prev.date < item.date then setKey m item.currency item else m
  else m

/-- The whole `forEach` loop building `priceMap`. -/
def normalize (data : List RawObservation) : PriceMap :=
  data.foldl normStep []

/-! #### Association-list lemmas -/

theorem getKey_nil (k : String) : getKey [] k = none := rfl

theorem getKey_cons (k' : String) (v : RawObservation) (rest : PriceMap) (k : String) :
    getKey ((k', v) :: rest) k = if k' = k then some v else getKey rest k := rfl

theorem setKey_nil (k : String) (v : RawObservation) : setKey [] k v = [(k, v)] := rfl

theorem setKey_cons (k' : String) (v' : RawObservation) (rest : PriceMap)
    (k : String) (v : RawObservation) :
    setKey ((k', v') :: rest) k v =
      if k' = k then (k, v) :: rest else (k', v') :: setKey rest k v := rfl

theorem getKey_setKey (m : PriceMap) (k : String) (v : RawObservation) (k' : String) :
    getKey (setKey m k v) k' = if k = k' then some v else getKey m k' := by
  induction m with
  | nil =>
    by_cases h : k = k' <;> simp [setKey, getKey, h]
  | cons p rest ih =>
    obtain ⟨pk, pv⟩ := p
    by_cases hpk : pk = k
    · subst hpk
      by_cases h : pk = k' <;> simp [setKey, getKey, h]
    · by_cases h : pk = k'
      · subst h
        have : ¬ k = pk := fun he => hpk he.symm
        simp [setKey, getKey, hpk, this, ih]
      · simp [setKey, getKey, hpk, h, ih]

theorem mem_setKey (m : PriceMap) (k : String) (v : RawObservation)
    (p : String × RawObservation) (hp : p ∈ setKey m k v) : p = (k, v) ∨ p ∈ m := by
  induction m with
  | nil =>
    simp [setKey] at hp
    exact Or.inl hp
  | cons q rest ih =>
    obtain ⟨qk, qv⟩ := q
    by_cases hqk : qk = k
    · rw [setKey_cons, if_pos hqk, List.mem_cons] at hp
      rcases hp with hp | hp
      · exact Or.inl hp
      · exact Or.inr (List.mem_cons_of_mem _ hp)
    · rw [setKey_cons, if_neg hqk, List.mem_cons] at hp
      rcases hp with hp | hp
      · exact Or.inr (hp ▸ List.mem_cons_self _ _)
      · rcases ih hp with h | h
        · exact Or.inl h
        · exact Or.inr (List.mem_cons_of_mem _ h)

theorem keys_setKey (m : PriceMap) (k : String) (v : RawObservation) :
    (setKey m k v).map Prod.fst =
      if k ∈ m.map Prod.fst then m.map Prod.fst else m.map Prod.fst ++ [k] := by
  induction m with
  | nil => simp [setKey]
  | cons p rest ih =>
    obtain ⟨pk, pv⟩ := p
    by_cases hpk : pk = k
    · subst hpk
      simp [setKey]
    · by_cases hk : k ∈ rest.map Prod.fst
      · simp [setKey, hpk, ih, hk, Ne.symm hpk]
      · simp [setKey, hpk, ih, hk, Ne.symm hpk]

theorem keys_nodup_setKey (m : PriceMap) (k : String) (v : RawObservation)
    (h : (m.map Prod.fst).Nodup) : ((setKey m k v).map Prod.fst).Nodup := by
  rw [keys_setKey]
  split
  · exact h
  · rename_i hk
    simpa using List.Nodup.append h (List.nodup_singleton k) (by simpa using hk)

theorem getKey_mem (m : PriceMap) (k : String) (v : RawObservation)
    (h : getKey m k = some v) : (k, v) ∈ m := by
  induction m with
  | nil => simp [getKey] at h
  | cons p rest ih =>
    obtain ⟨pk, pv⟩ := p
    by_cases hpk : pk = k
    · rw [getKey_cons, if_pos hpk, Option.some.injEq] at h
      subst hpk
      subst h
      exact List.mem_cons_self _ _
    · rw [getKey_cons, if_neg hpk] at h
      exact List.mem_cons_of_mem _ (ih h)

theorem mem_getKey (m : PriceMap) (k : String) (v : RawObservation)
    (hnd : (m.map Prod.fst).Nodup) (h : (k, v) ∈ m) : getKey m k = some v := by
  induction m with
  | nil => simp at h
  | cons p rest ih =>
    obtain ⟨pk, pv⟩ := p
    simp only [List.map_cons, List.nodup_cons] at hnd
    rcases List.mem_cons.mp h with he | hm
    · cases he
      simp [getKey]
    · have hk : pk ≠ k := by
        intro he
        subst he
        exact hnd.1 (List.mem_map_of_mem Prod.fst hm)
      rw [getKey_cons, if_neg hk]
      exact ih hnd.2 hm

/-! #### Behaviour of one `forEach` iteration -/

theorem normStep_invalid (m : PriceMap) (i : RawObservation) (h : isValidObs i = false) :
    normStep m i = m := by
  simp [normStep, h]

/-- A fresh key is inserted. -/
theorem normStep_of_none (m : PriceMap) (i : RawObservation) (hv : isValidObs i = true)
    (hnone : getKey m i.currency = none) : normStep m i = setKey m i.currency i := by
  unfold normStep
  rw [if_pos hv, hnone]

/-- A strictly fresher observation replaces the stored one. -/
theorem normStep_of_fresh (m : PriceMap) (i prev : RawObservation) (hv : isValidObs i = true)
    (hprev : getKey m i.currency = some prev) (hlt : prev.date < i.date) :
    normStep m i = setKey m i.currency i := by
  unfold normStep
  rw [if_pos hv, hprev]
  show (if prev.date < i.date then setKey m i.currency i else m) = _
  rw [if_pos hlt]

/-- An observation no fresher than the stored one is discarded. -/
theorem normStep_of_stale (m : PriceMap) (i prev : RawObservation) (hv : isValidObs i = true)
    (hprev : getKey m i.currency = some prev) (hge : ¬ prev.date < i.date) :
    normStep m i = m := by
  unfold normStep
  rw [if_pos hv, hprev]
  show (if prev.date < i.date then setKey m i.currency i else m) = _
  rw [if_neg hge]

/-- `normStep` leaves the map unchanged, or is a `setKey` of the observation
under its own currency. -/
theorem normStep_eq_or (m : PriceMap) (i : RawObservation) :
    normStep m i = m ∨
      (normStep m i = setKey m i.currency i ∧ isValidObs i = true) := by
  by_cases hv : isValidObs i
  · cases hg : getKey m i.currency with
    | none => exact Or.inr ⟨normStep_of_none m i hv hg, hv⟩
    | some prev =>
      by_cases hlt : prev.date < i.date
      · exact Or.inr ⟨normStep_of_fresh m i prev hv hg hlt, hv⟩
      · exact Or.inl (normStep_of_stale m i prev hv hg hlt)
  · exact Or.inl (normStep_invalid m i (Bool.eq_false_iff.mpr hv))

theorem getKey_normStep_other (m : PriceMap) (i : RawObservation) (s : String)
    (h : i.currency ≠ s) : getKey (normStep m i) s = getKey m s := by
  rcases normStep_eq_or m i with he | ⟨he, -⟩ <;> rw [he]
  rw [getKey_setKey, if_neg h]

/-- `normStep` leaves the key unchanged, or stores `i` under its currency. -/
theorem normStep_cases (m : PriceMap) (i : RawObservation) (s : String) :
    getKey (normStep m i) s = getKey m s ∨
      (getKey (normStep m i) s = some i ∧ i.currency = s ∧ isValidObs i = true) := by
  by_cases hcur : i.currency = s
  · rcases normStep_eq_or m i with he | ⟨he, hv⟩
    · exact Or.inl (by rw [he])
    · refine Or.inr ⟨?_, hcur, hv⟩
      rw [he, ← hcur, getKey_setKey, if_pos rfl]
  · exact Or.inl (getKey_normStep_other m i s hcur)

/-- After processing a valid observation, its symbol is present with a date
at least as fresh as the observation's. -/
theorem normStep_date_lb (m : PriceMap) (i : RawObservation) (hv : isValidObs i = true) :
    ∃ u, getKey (normStep m i) i.currency = some u ∧ i.date ≤ u.date := by
  cases hg : getKey m i.currency with
  | none =>
    refine ⟨i, ?_, le_refl _⟩
    rw [normStep_of_none m i hv hg, getKey_setKey, if_pos rfl]
  | some prev =>
    by_cases hlt : prev.date < i.date
    · refine ⟨i, ?_, le_refl _⟩
      rw [normStep_of_fresh m i prev hv hg hlt, getKey_setKey, if_pos rfl]
    · refine ⟨prev, ?_, not_lt.mp hlt⟩
      rw [normStep_of_stale m i prev hv hg hlt]
      exact hg

/-! #### Behaviour of the whole loop -/

/-- A stored symbol stays stored through the rest of the loop; its date never
decreases, and any replacement comes from a valid observation of the data. -/
theorem getKey_foldl_mono (data : List RawObservation) (m : PriceMap) (s : String)
    (v : RawObservation) (h : getKey m s = some v) :
    ∃ w, getKey (data.foldl normStep m) s = some w ∧ v.date ≤ w.date ∧
      (w = v ∨ (w ∈ data ∧ w.currency = s ∧ isValidObs w = true)) := by
  induction data generalizing m v with
  | nil => exact ⟨v, h, le_refl _, Or.inl rfl⟩
  | cons i rest ih =>
    rcases normStep_cases m i s with hsame | ⟨hset, hcur, hv⟩
    · obtain ⟨w, hw, hle, hor⟩ := ih (normStep m i) v (hsame.trans h)
      refine ⟨w, hw, hle, ?_⟩
      rcases hor with hw' | ⟨hmem, hc, hvw⟩
      · exact Or.inl hw'
      · exact Or.inr ⟨List.mem_cons_of_mem _ hmem, hc, hvw⟩
    · by_cases hd : v.date ≤ i.date
      · obtain ⟨w, hw, hle, hor⟩ := ih (normStep m i) i hset
        refine ⟨w, hw, le_trans hd hle, Or.inr ?_⟩
        rcases hor with rfl | ⟨hmem, hc, hvw⟩
        · exact ⟨List.mem_cons_self _ _, hcur, hv⟩
        · exact ⟨List.mem_cons_of_mem _ hmem, hc, hvw⟩
      · -- `i` cannot have replaced a strictly fresher stored record
        exfalso
        have hvcur : getKey m i.currency = some v := by rw [hcur]; exact h
        have hnl : ¬ v.date < i.date := fun hlt => hd (le_of_lt hlt)
        have hm : normStep m i = m := normStep_of_stale m i v hv hvcur hnl
        rw [hm, h] at hset
        have hvi : v = i := by injection hset
        exact hd (le_of_eq (congrArg RawObservation.date hvi))

/-- A symbol is absent from the final map iff absent initially and no valid
observation of the data carries it. -/
theorem getKey_foldl_none (data : List RawObservation) (m : PriceMap) (s : String) :
    getKey (data.foldl normStep m) s = none ↔
      getKey m s = none ∧ ∀ i ∈ data, isValidObs i = true → i.currency ≠ s := by
  induction data generalizing m with
  | nil => simp
  | cons i rest ih =>
    rw [List.foldl_cons, ih]
    constructor
    · rintro ⟨hstep, hrest⟩
      rcases normStep_cases m i s with hsame | ⟨hset, hcur, hv⟩
      · refine ⟨hsame ▸ hstep, ?_⟩
        intro j hj hvj
        rcases List.mem_cons.mp hj with rfl | hj
        · intro hcur
          rcases normStep_date_lb m j hvj with ⟨u, hu, -⟩
          rw [hcur] at hu
          rw [hstep] at hu
          exact Option.noConfusion hu
        · exact hrest j hj hvj
      · rw [hset] at hstep
        exact Option.noConfusion hstep
    · rintro ⟨hm, hall⟩
      refine ⟨?_, fun j hj => hall j (List.mem_cons_of_mem _ hj)⟩
      rcases normStep_cases m i s with hsame | ⟨hset, hcur, hv⟩
      · exact hsame.trans hm
      · exact absurd hcur (hall i (List.mem_cons_self _ _) hv)

/-- Whatever the final map stores came from the initial map or is a valid
observation of the data stored under its own symbol. -/
theorem getKey_foldl_some (data : List RawObservation) (m : PriceMap) (s : String)
    (w : RawObservation) (h : getKey (data.foldl normStep m) s = some w) :
    getKey m s = some w ∨ (w ∈ data ∧ w.currency = s ∧ isValidObs w = true) := by
  induction data generalizing m with
  | nil => exact Or.inl h
  | cons i rest ih =>
    rcases ih (normStep m i) h with hstep | ⟨hmem, hc, hvw⟩
    · rcases normStep_cases m i s with hsame | ⟨hset, hcur, hv⟩
      · exact Or.inl (hsame ▸ hstep)
      · rw [hset] at hstep
        have : i = w := by injection hstep
        exact Or.inr ⟨this ▸ List.mem_cons_self _ _, this ▸ hcur, this ▸ hv⟩
    · exact Or.inr ⟨List.mem_cons_of_mem _ hmem, hc, hvw⟩

/-- The record finally stored for a symbol is at least as fresh as every
valid observation of that symbol in the data. -/
theorem getKey_foldl_fresh (data : List RawObservation) (m : PriceMap) (s : String) :
    ∀ i ∈ data, i.currency = s → isValidObs i = true →
      ∀ w, getKey (data.foldl normStep m) s = some w → i.date ≤ w.date := by
  induction data generalizing m with
  | nil => intro i hi; simp at hi
  | cons j rest ih =>
    intro i hi hcur hv w hw
    rw [List.foldl_cons] at hw
    rcases List.mem_cons.mp hi with rfl | hi
    · obtain ⟨u, hu, hle⟩ := normStep_date_lb m i hv
      rw [hcur] at hu
      obtain ⟨w', hw', hle', -⟩ := getKey_foldl_mono rest (normStep m i) s u hu
      rw [hw] at hw'
      have hww : w = w' := by injection hw'
      exact le_trans hle (hww ▸ hle')
    · exact ih (normStep m j) i hi hcur hv w hw

/-- The loop never duplicates a key: `priceMap` has one entry per symbol. -/
theorem keys_nodup_foldl (data : List RawObservation) (m : PriceMap)
    (h : (m.map Prod.fst).Nodup) : ((data.foldl normStep m).map Prod.fst).Nodup := by
  induction data generalizing m with
  | nil => exact h
  | cons i rest ih =>
    rw [List.foldl_cons]
    refine ih (normStep m i) ?_
    rcases normStep_eq_or m i with he | ⟨he, -⟩
    · rw [he]
      exact h
    · rw [he]
      exact keys_nodup_setKey m _ _ h

/-- Every entry of `priceMap` is stored under its own currency. -/
theorem currency_inv_foldl (data : List RawObservation) (m : PriceMap)
    (h : ∀ p ∈ m, (Prod.snd p).currency = p.1) :
    ∀ p ∈ data.foldl normStep m, (Prod.snd p).currency = p.1 := by
  induction data generalizing m with
  | nil => exact h
  | cons i rest ih =>
    rw [List.foldl_cons]
    refine ih (normStep m i) ?_
    intro p hp
    rcases normStep_eq_or m i with he | ⟨he, -⟩
    · exact h p (he ▸ hp)
    · rw [he] at hp
      rcases mem_setKey m _ _ p hp with hpe | hp
      · rw [hpe]
      · exact h p hp

/-- C2: the normalizer keeps one canonical record per symbol; a symbol is
present iff it has a valid (`price > 0`) observation, and the record kept is
a valid observation of that symbol whose `date` is maximal among the
symbol's valid observations — an invalid observation is never selected, and
a symbol with only invalid observations is absent. -/
theorem C2_normalizer_canonical :
    ∀ (data : List RawObservation) (s : String),
      ((normalize data).map Prod.fst).Nodup ∧
      ((getKey (normalize data) s).isSome ↔
        ∃ i ∈ data, i.currency = s ∧ isValidObs i = true) ∧
      (∀ v, getKey (normalize data) s = some v →
        v ∈ data ∧ v.currency = s ∧ isValidObs v = true ∧
        ∀ i ∈ data, i.currency = s → isValidObs i = true → i.date ≤ v.date) := by
  intro data s
  refine ⟨keys_nodup_foldl data [] (by simp), ⟨?_, ?_⟩, ?_⟩
  · intro hs
    obtain ⟨w, hw⟩ := Option.isSome_iff_exists.mp hs
    rcases getKey_foldl_some data [] s w hw with hnil | ⟨hmem, hc, hv⟩
    · exact absurd hnil (by simp [getKey])
    · exact ⟨w, hmem, hc, hv⟩
  · rintro ⟨i, hi, hc, hv⟩
    by_contra hns
    rw [Option.not_isSome_iff_eq_none] at hns
    exact (getKey_foldl_none data [] s).mp hns |>.2 i hi hv hc
  · intro v hv
    rcases getKey_foldl_some data [] s v hv with hnil | ⟨hmem, hc, hvv⟩
    · exact absurd hnil (by simp [getKey])
    · exact ⟨hmem, hc, hvv,
        fun i hi hcur hvi => getKey_foldl_fresh data [] s i hi hcur hvi v hv⟩

/-- Witness for C2 on the spec's freshness example: observations
`(price 1, t = 1)` and `(price 2, t = 2)` for symbol `X`; the canonical
record is the second one and dominates the first one's timestamp. -/
theorem C2_normalizer_canonical_witness :
    (⟨"X", some 2, 2⟩ : RawObservation) ∈
        [(⟨"X", some 1, 1⟩ : RawObservation), ⟨"X", some 2, 2⟩] ∧
      (⟨"X", some 2, 2⟩ : RawObservation).currency = "X" ∧
      isValidObs ⟨"X", some 2, 2⟩ = true ∧
      (1 : ℤ) ≤ (⟨"X", some 2, 2⟩ : RawObservation).date := by
  have h := (C2_normalizer_canonical [⟨"X", some 1, 1⟩, ⟨"X", some 2, 2⟩] "X").2.2
      ⟨"X", some 2, 2⟩ (by decide)
  exact ⟨h.1, h.2.1, h.2.2.1, h.2.2.2 ⟨"X", some 1, 1⟩ (by decide) (by decide) (by decide)⟩

/-- When the older of two same-symbol valid observations is stored and the
newer one does not carry a strictly greater date, the stored one is kept. -/
theorem normalize_pair_first (a b : RawObservation) (hcur : a.currency = b.currency)
    (hva : isValidObs a = true) (hvb : isValidObs b = true)
    (hnl : ¬ a.date < b.date) : getKey (normalize [a, b]) a.currency = some a := by
  show getKey (normStep (normStep [] a) b) a.currency = some a
  have h1 : normStep [] a = [(a.currency, a)] := by
    rw [normStep_of_none [] a hva rfl, setKey_nil]
  have hget : getKey (normStep [] a) b.currency = some a := by
    rw [h1, ← hcur, getKey_cons, if_pos rfl]
  rw [normStep_of_stale _ b a hvb hget hnl, h1, getKey_cons, if_pos rfl]

/-- C10: a later observation replaces the stored one only when its date is
strictly greater, so on an exact timestamp tie between two valid
observations of one symbol the first-seen observation wins, and the
canonical record for a tied symbol depends on input order. -/
theorem C10_tie_first_seen :
    (∀ (m : PriceMap) (i prev : RawObservation), isValidObs i = true →
        getKey m i.currency = some prev → i.date ≤ prev.date → normStep m i = m) ∧
    (∀ o1 o2 : RawObservation, o1.currency = o2.currency → isValidObs o1 = true →
        isValidObs o2 = true → o1.date = o2.date →
        getKey (normalize [o1, o2]) o1.currency = some o1 ∧
        getKey (normalize [o2, o1]) o2.currency = some o2) := by
  refine ⟨fun m i prev hv hprev hle => normStep_of_stale m i prev hv hprev (not_lt.mpr hle), ?_⟩
  intro o1 o2 hcur hv1 hv2 hdate
  exact ⟨normalize_pair_first o1 o2 hcur hv1 hv2 (by rw [hdate]; exact lt_irrefl _),
    normalize_pair_first o2 o1 hcur.symm hv2 hv1 (by rw [← hdate]; exact lt_irrefl _)⟩

/-- Witness for C10: two valid `X` observations with equal timestamps; the
canonical record is the first seen in each arrival order. -/
theorem C10_tie_first_seen_witness :
    getKey (normalize [(⟨"X", some 1, 5⟩ : RawObservation), ⟨"X", some 2, 5⟩]) "X" =
        some ⟨"X", some 1, 5⟩ ∧
      getKey (normalize [(⟨"X", some 2, 5⟩ : RawObservation), ⟨"X", some 1, 5⟩]) "X" =
        some ⟨"X", some 2, 5⟩ :=
  C10_tie_first_seen.2 ⟨"X", some 1, 5⟩ ⟨"X", some 2, 5⟩ (by decide) (by decide)
    (by decide) (by decide)

/-! ### The swap-form token list and the full pipeline (`src/unnamed/part_001`)

```js
Object.values(priceMap).forEach((item) => {
  tokensWithPrices.push({ currency: item.currency, price: parseFloat(item.price) });
});
tokensWithPrices.sort((a, b) => a.currency.localeCompare(b.currency));
```
-/

/-- A token entry `{currency, price}` of the swap form. -/
structure Token where
  currency : String
  price : ℚ
deriving DecidableEq

/-- Building `tokensWithPrices` from `Object.values(priceMap)` (insertion
order); the stored records are all valid, so their parsed price is present. -/
def tokensWithPrices (data : List RawObservation) : List Token :=
  (normalize data).map fun p => ⟨(Prod.snd p).currency, ((Prod.snd p).price).getD 0⟩

/-- The comparator `(a, b) => a.currency.localeCompare(b.currency)`: `a` may
precede `b` when its currency does not compare greater.  `localeCompare` is a
total order on strings; we use the lexicographic one. -/
def currencyLE (a b : Token) : Prop := a.currency ≤ b.currency

instance : DecidableRel currencyLE := fun _ _ => inferInstanceAs (Decidable (_ ≤ _))

instance : IsTotal Token currencyLE := ⟨fun a b => le_total a.currency b.currency⟩

instance : IsTrans Token currencyLE := ⟨fun _ _ _ h1 h2 => le_trans h1 h2⟩

/-- Strict version of the currency order, for uniqueness arguments. -/
def currencyLT (a b : Token) : Prop := a.currency < b.currency

instance : IsAntisymm Token currencyLT := ⟨fun _ _ h1 h2 => (lt_asymm h1 h2).elim⟩

/-- `tokensWithPrices.sort((a, b) => a.currency.localeCompare(b.currency))`
(JS stable sort; keys are distinct so any sorting algorithm agrees). -/
def swapTokenStage (data : List RawObservation) : List Token :=
  List.insertionSort currencyLE (tokensWithPrices data)

/-- One run of the whole program on one snapshot: the swap form's normalized
and sorted token list, and the wallet page's formatted balances. -/
def fullPipeline (data : List RawObservation) (balances : List WalletBalance)
    (prices : List (String × ℚ)) : List Token × List FormattedBalance :=
  (swapTokenStage data, formattedBalances balances prices)

/-! #### Order-independence of the normalizer under distinct timestamps -/

/-- With per-symbol-distinct timestamps among valid observations, the final
`priceMap` does not depend on the arrival order of the feed. -/
theorem getKey_normalize_perm (data data' : List RawObservation)
    (hperm : data.Perm data')
    (hdistinct : ∀ i ∈ data, ∀ j ∈ data, isValidObs i = true → isValidObs j = true →
      i.currency = j.currency → i.date = j.date → i = j)
    (s : String) : getKey (normalize data) s = getKey (normalize data') s := by
  cases hga : getKey (normalize data) s with
  | none =>
    have h := (getKey_foldl_none data [] s).mp hga
    symm
    exact (getKey_foldl_none data' [] s).mpr
      ⟨h.1, fun i hi hvi => h.2 i (hperm.symm.subset hi) hvi⟩
  | some v =>
    rcases getKey_foldl_some data [] s v hga with hnil | ⟨hmem, hcur, hvv⟩
    · exact absurd hnil (by simp [getKey])
    cases hgb : getKey (normalize data') s with
    | none =>
      have h := (getKey_foldl_none data' [] s).mp hgb
      exact absurd hcur (h.2 v (hperm.subset hmem) hvv)
    | some w =>
      rcases getKey_foldl_some data' [] s w hgb with hnil | ⟨hmem', hcur', hvw⟩
      · exact absurd hnil (by simp [getKey])
      have hle1 : w.date ≤ v.date :=
        getKey_foldl_fresh data [] s w (hperm.symm.subset hmem') hcur' hvw v hga
      have hle2 : v.date ≤ w.date :=
        getKey_foldl_fresh data' [] s v (hperm.subset hmem) hcur hvv w hgb
      have hvw_eq : v = w :=
        hdistinct v hmem w (hperm.symm.subset hmem') hvv hvw
          (hcur.trans hcur'.symm) (le_antisymm hle2 hle1)
      rw [hvw_eq]

/-- Under the same hypotheses the two `priceMap`s hold the same entries. -/
theorem normalize_perm_entries (data data' : List RawObservation)
    (hperm : data.Perm data')
    (hdistinct : ∀ i ∈ data, ∀ j ∈ data, isValidObs i = true → isValidObs j = true →
      i.currency = j.currency → i.date = j.date → i = j) :
    (normalize data).Perm (normalize data') := by
  have h1 : ((normalize data).map Prod.fst).Nodup := keys_nodup_foldl data [] (by simp)
  have h2 : ((normalize data').map Prod.fst).Nodup := keys_nodup_foldl data' [] (by simp)
  rw [List.perm_ext_iff_of_nodup (h1.of_map _) (h2.of_map _)]
  rintro ⟨k, v⟩
  constructor
  · intro hp
    have hg := mem_getKey _ _ _ h1 hp
    rw [getKey_normalize_perm data data' hperm hdistinct k] at hg
    exact getKey_mem _ _ _ hg
  · intro hp
    have hg := mem_getKey _ _ _ h2 hp
    rw [← getKey_normalize_perm data data' hperm hdistinct k] at hg
    exact getKey_mem _ _ _ hg

/-- The token currencies are exactly the `priceMap` keys. -/
theorem tokens_currency_eq_keys (data : List RawObservation) :
    (tokensWithPrices data).map Token.currency = (normalize data).map Prod.fst := by
  rw [tokensWithPrices, List.map_map]
  exact List.map_congr_left fun p hp => currency_inv_foldl data [] (by simp) p hp

/-- Sorted by `currencyLE` with pairwise-distinct currencies means sorted by
the strict currency order. -/
theorem pairwise_lt_of_sorted_nodup (l : List Token)
    (hs : l.Pairwise currencyLE) (hn : (l.map Token.currency).Nodup) :
    l.Pairwise currencyLT := by
  have hne : l.Pairwise fun a b => a.currency ≠ b.currency := List.pairwise_map.mp hn
  exact (hs.and hne).imp fun h => lt_of_le_of_ne h.1 h.2

/-- The sorted token list is arrival-order-independent when valid same-symbol
observations carry distinct timestamps. -/
theorem swapTokenStage_perm_eq (data data' : List RawObservation)
    (hperm : data.Perm data')
    (hdistinct : ∀ i ∈ data, ∀ j ∈ data, isValidObs i = true → isValidObs j = true →
      i.currency = j.currency → i.date = j.date → i = j) :
    swapTokenStage data = swapTokenStage data' := by
  have htok : (tokensWithPrices data).Perm (tokensWithPrices data') :=
    (normalize_perm_entries data data' hperm hdistinct).map _
  have hsortperm : (swapTokenStage data).Perm (swapTokenStage data') :=
    ((List.perm_insertionSort currencyLE _).trans htok).trans
      (List.perm_insertionSort currencyLE _).symm
  have hn1 : ((swapTokenStage data).map Token.currency).Nodup := by
    refine (((List.perm_insertionSort currencyLE _).map Token.currency).nodup_iff).mpr ?_
    rw [tokens_currency_eq_keys]
    exact keys_nodup_foldl data [] (by simp)
  have hn2 : ((swapTokenStage data').map Token.currency).Nodup := by
    refine (((List.perm_insertionSort currencyLE _).map Token.currency).nodup_iff).mpr ?_
    rw [tokens_currency_eq_keys]
    exact keys_nodup_foldl data' [] (by simp)
  exact List.eq_of_perm_of_sorted hsortperm
    (pairwise_lt_of_sorted_nodup _ (List.sorted_insertionSort currencyLE _) hn1)
    (pairwise_lt_of_sorted_nodup _ (List.sorted_insertionSort currencyLE _) hn2)

/-- C9 counterexample: the claim that the pipeline output is independent of
the order in which the observations arrive fails when two valid observations
of one symbol share a timestamp: the two arrival orders of the same multiset
`{(X, price 1, t 0), (X, price 2, t 0)}` yield different outputs. -/
theorem C9_order_dependence_counterexample :
    ([(⟨"X", some 1, 0⟩ : RawObservation), ⟨"X", some 2, 0⟩]).Perm
        [⟨"X", some 2, 0⟩, ⟨"X", some 1, 0⟩] ∧
      fullPipeline [⟨"X", some 1, 0⟩, ⟨"X", some 2, 0⟩] [] [] ≠
        fullPipeline [⟨"X", some 2, 0⟩, ⟨"X", some 1, 0⟩] [] [] :=
  ⟨List.Perm.swap _ _ _, by decide⟩

/-- C9 (amended): for a fixed input multiset of raw observations, fixed
balances and fixed prices, the full pipeline is a pure function — repeated
runs give identical output — and the output is independent of the arrival
order of the observations provided no two valid observations of the same
symbol carry the same timestamp (on a timestamp tie the kept record is the
first seen, so arrival order can matter; see the counterexample). -/
theorem C9_pipeline_determinism :
    ∀ (data data' : List RawObservation) (balances : List WalletBalance)
      (prices : List (String × ℚ)),
      data.Perm data' →
      (∀ i ∈ data, ∀ j ∈ data, isValidObs i = true → isValidObs j = true →
        i.currency = j.currency → i.date = j.date → i = j) →
      fullPipeline data balances prices = fullPipeline data' balances prices := by
  intro data data' balances prices hperm hdistinct
  unfold fullPipeline
  rw [swapTokenStage_perm_eq data data' hperm hdistinct]

/-- Witness for C9 (amended) at a concrete permuted feed with distinct
timestamps. -/
theorem C9_pipeline_determinism_witness :
    fullPipeline [(⟨"X", some 1, 1⟩ : RawObservation), ⟨"X", some 2, 2⟩] [] [] =
      fullPipeline [⟨"X", some 2, 2⟩, ⟨"X", some 1, 1⟩] [] [] :=
  C9_pipeline_determinism [⟨"X", some 1, 1⟩, ⟨"X", some 2, 2⟩]
    [⟨"X", some 2, 2⟩, ⟨"X", some 1, 1⟩] [] [] (List.Perm.swap _ _ _) (by decide)

/-! ### `calculateExchange` (`src/unnamed/part_001`)

```js
const calculateExchange = (amount, from, to) => {
  if (!amount || !from || !to || !from.price || !to.price) return "";
  const numAmount = parseFloat(amount);
  if (isNaN(numAmount) || numAmount <= 0) return "";
  const fromValue = numAmount * from.price;
  const toValue = fromValue / to.price;
  return toValue.toFixed(6);
};
```
-/

/-- Digit run to a number, as repeated `*10 + digit`. -/
def digitsToNat (cs : List Char) : Nat :=
  cs.foldl (fun acc c => 10 * acc + (c.toNat - 48)) 0

/-- `parseFloat` on the swap form's amount strings: the longest prefix made
of decimal digits, an optional point, and further digits; `none` (`NaN`)
when that prefix holds no digit.  (Full `parseFloat` additionally accepts
signs and exponents, which the amount-input mask of `CurrencyInput` never
lets through; a sign would parse negative and be rejected by the
`numAmount <= 0` guard just like `none` is.) -/
def parseDecimal (s : String) : Option ℚ :=
  let cs := s.toList
  let intPart := cs.takeWhile Char.isDigit
  match cs.dropWhile Char.isDigit with
  | '.' :: rest2 =>
    let fracPart := rest2.takeWhile Char.isDigit
    if intPart.isEmpty && fracPart.isEmpty then none
    else some (qadd (mkRat (digitsToNat intPart) 1)
      (mkRat (digitsToNat fracPart) (10 ^ fracPart.length)))
  | _ =>
    if intPart.isEmpty then none
    else some (mkRat (digitsToNat intPart) 1)

/-- The body of `calculateExchange`.  A missing token is `none`; `!amount`
is the empty string (the only falsy amount string the mask lets through);
`!from.price`/`!to.price` fire on a zero price. -/
def calculateExchange (amount : String) (fromTok toTok : Option Token) : String :=
  match fromTok, toTok with
  | some f, some t =>
    if amount = "" ∨ f.price = 0 ∨ t.price = 0 then ""
    else
      match parseDecimal amount with
      | none => ""
      | some numAmount =>
        if numAmount ≤ 0 then ""
        else toFixed6 (qdiv (qmul numAmount f.price) t.price)
  | _, _ => ""

theorem calculateExchange_some (amount : String) (f t : Token) :
    calculateExchange amount (some f) (some t) =
      if amount = "" ∨ f.price = 0 ∨ t.price = 0 then ""
      else
        match parseDecimal amount with
        | none => ""
        | some numAmount =>
          if numAmount ≤ 0 then "" else toFixed6 (qdiv (qmul numAmount f.price) t.price) := rfl

/-- C4 counterexample: at `sourceAmount = "10"`, `sourcePrice = 0`,
`targetPrice = 4` the claimed formula yields `10 * 0 / 4 = 0` — rendered
`"0.000000"` — while `calculateExchange` returns the empty string, because
`!from.price` also short-circuits on a zero source price, a case in which
the claim requires the formula value. -/
theorem C4_source_price_zero_counterexample :
    calculateExchange "10" (some ⟨"A", 0⟩) (some ⟨"B", 4⟩) = "" ∧
      toFixed6 ((10 : ℚ) * 0 / 4) = "0.000000" ∧ ("" : String) ≠ "0.000000" := by
  refine ⟨by decide, ?_, by decide⟩
  rw [show ((10 : ℚ) * 0 / 4) = 0 by norm_num]
  decide

/-- C4 (amended): whenever the amount parses to a positive number and both
tokens are present with nonzero prices, `calculateExchange` returns
`sourceAmount * sourcePrice / targetPrice` rendered with 6 fractional
digits (`10, 2, 4` gives `5`); it returns the empty string — never a
division by zero — whenever the target token is absent or its price is
zero, whenever the amount is empty, unparsable or not positive, and also
whenever the source token is absent or its price is zero. -/
theorem C4_exchange_conversion :
    (∀ (s : String) (f t : Token) (q : ℚ), parseDecimal s = some q → 0 < q →
        f.price ≠ 0 → t.price ≠ 0 →
        calculateExchange s (some f) (some t) = toFixed6 (q * f.price / t.price)) ∧
    toFixed6 ((10 : ℚ) * 2 / 4) = "5.000000" ∧
    (∀ (s : String) (f : Option Token), calculateExchange s f none = "") ∧
    (∀ (s : String) (t : Option Token), calculateExchange s none t = "") ∧
    (∀ (s : String) (f t : Token), t.price = 0 → calculateExchange s (some f) (some t) = "") ∧
    (∀ (s : String) (f t : Token), f.price = 0 → calculateExchange s (some f) (some t) = "") ∧
    (∀ (s : String) (f t : Token) (q : ℚ), parseDecimal s = some q → q ≤ 0 →
        calculateExchange s (some f) (some t) = "") ∧
    (∀ (s : String) (f t : Token), parseDecimal s = none →
        calculateExchange s (some f) (some t) = "") := by
  refine ⟨?_, ?_, ?_, ?_, ?_, ?_, ?_, ?_⟩
  · intro s f t q hq hpos hf ht
    have hs : s ≠ "" := by
      intro he
      rw [he] at hq
      exact Option.noConfusion ((show parseDecimal "" = none from rfl) ▸ hq)
    rw [calculateExchange_some, if_neg (by push_neg; exact ⟨hs, hf, ht⟩), hq]
    show (if q ≤ 0 then "" else toFixed6 (qdiv (qmul q f.price) t.price)) = _
    rw [if_neg (not_le.mpr hpos), qmul_eq, qdiv_eq]
  · rw [show ((10 : ℚ) * 2 / 4) = 5 by norm_num]
    decide
  · intro s f
    cases f <;> rfl
  · intro s t
    rfl
  · intro s f t ht
    rw [calculateExchange_some, if_pos (Or.inr (Or.inr ht))]
  · intro s f t hf
    rw [calculateExchange_some, if_pos (Or.inr (Or.inl hf))]
  · intro s f t q hq hle
    rw [calculateExchange_some]
    by_cases hcond : s = "" ∨ f.price = 0 ∨ t.price = 0
    · rw [if_pos hcond]
    · rw [if_neg hcond, hq]
      show (if q ≤ 0 then "" else toFixed6 (qdiv (qmul q f.price) t.price)) = _
      rw [if_pos hle]
  · intro s f t hq
    rw [calculateExchange_some]
    by_cases hcond : s = "" ∨ f.price = 0 ∨ t.price = 0
    · rw [if_pos hcond]
    · rw [if_neg hcond, hq]

/-- Witness for C4 (amended): the cross-rate scenario of the spec. -/
theorem C4_exchange_conversion_witness :
    calculateExchange "10" (some ⟨"USD", 2⟩) (some ⟨"EUR", 4⟩) =
        toFixed6 ((10 : ℚ) * 2 / 4) ∧
      calculateExchange "10" (some ⟨"USD", 2⟩) (some ⟨"EUR", 0⟩) = "" :=
  ⟨C4_exchange_conversion.1 "10" ⟨"USD", 2⟩ ⟨"EUR", 4⟩ 10 (by decide) (by decide)
      (by decide) (by decide),
    C4_exchange_conversion.2.2.2.2.1 "10" ⟨"USD", 2⟩ ⟨"EUR", 0⟩ rfl⟩

/-! ### Amount-input masking (`handleAmountChange` in `src/unnamed/part_000`)

```js
const handleAmountChange = (e) => {
  const value = e.target.value;
  if (value === "" || /^\d*\.?\d*$/.test(value)) {
    onAmountChange(value);
  }
};
```
-/

/-- The test `/^\d*\.?\d*$/.test(value)`: a maximal run of digits, then
either the end, or a single point followed by digits only.  Maximal munch is
exact for this pattern, since a digit never matches `\.`. -/
def regexTest (cs : List Char) : Bool :=
  match cs.dropWhile Char.isDigit with
  | [] => true
  | c :: rest => c == '.' && rest.all Char.isDigit

/-- The guard `value === "" || /^\d*\.?\d*$/.test(value)`. -/
def acceptsAmount (value : String) : Bool :=
  value == "" || regexTest value.toList

/-- The state transition of a keystroke: an accepted value is propagated
through `onAmountChange` (becoming the new amount state), a rejected one
leaves the previous state untouched and raises no error. -/
def handleAmountChange (prev value : String) : String :=
  if acceptsAmount value then value else prev

/-- The claim's wording of the accepted language, kept separate from the
code's regular expression so the two can be compared: the empty string, or
an optional run of digits, an optional single decimal point, and an optional
run of digits. -/
def maskSpec (value : String) : Prop :=
  value = "" ∨ ∃ (ds1 ds2 : List Char) (hasDot : Bool),
    value.toList = ds1 ++ (if hasDot then ['.'] else []) ++ ds2 ∧
    (∀ c ∈ ds1, c.isDigit = true) ∧ ∀ c ∈ ds2, c.isDigit = true

theorem regexTest_nil_dropWhile (cs : List Char)
    (hd : cs.dropWhile Char.isDigit = []) : regexTest cs = true := by
  rw [regexTest, hd]

theorem regexTest_cons_dropWhile (cs : List Char) (c : Char) (rest : List Char)
    (hd : cs.dropWhile Char.isDigit = c :: rest) :
    regexTest cs = (c == '.' && rest.all Char.isDigit) := by
  rw [regexTest, hd]

/-- C8: the amount-input handler propagates a new value iff it is empty or
matches "optional digits, optional single point, optional digits" —
`"12.34"` and `""` are accepted, `"12.3.4"`, a sign or an exponent are
rejected — and a rejected keystroke leaves the prior state unchanged. -/
theorem C8_amount_input_masking :
    (∀ value : String, acceptsAmount value = true ↔ maskSpec value) ∧
    (∀ prev value : String, acceptsAmount value = true →
      handleAmountChange prev value = value) ∧
    (∀ prev value : String, acceptsAmount value = false →
      handleAmountChange prev value = prev) ∧
    acceptsAmount "12.34" = true ∧ acceptsAmount "" = true ∧
    acceptsAmount "12.3.4" = false ∧ acceptsAmount "-12" = false ∧
    acceptsAmount "1e5" = false := by
  refine ⟨?_, ?_, ?_, by decide, by decide, by decide, by decide, by decide⟩
  · intro value
    have hsplit : value.toList.takeWhile Char.isDigit ++ value.toList.dropWhile Char.isDigit
        = value.toList := List.takeWhile_append_dropWhile _ _
    constructor
    · intro hacc
      rw [acceptsAmount, Bool.or_eq_true] at hacc
      rcases hacc with he | hre
      · exact Or.inl (by simpa using he)
      · right
        cases hd : value.toList.dropWhile Char.isDigit with
        | nil =>
          refine ⟨value.toList.takeWhile Char.isDigit, [], false, ?_, ?_, by simp⟩
          · rw [hd] at hsplit
            simpa using hsplit.symm
          · intro c hc
            exact List.all_eq_true.mp List.all_takeWhile c hc
        | cons c rest =>
          rw [regexTest_cons_dropWhile _ c rest hd, Bool.and_eq_true, beq_iff_eq] at hre
          refine ⟨value.toList.takeWhile Char.isDigit, rest, true, ?_, ?_, ?_⟩
          · rw [hd, hre.1] at hsplit
            simpa using hsplit.symm
          · intro x hx
            exact List.all_eq_true.mp List.all_takeWhile x hx
          · exact fun x hx => List.all_eq_true.mp hre.2 x hx
    · intro hmask
      rcases hmask with he | ⟨ds1, ds2, hasDot, hs, h1, h2⟩
      · rw [he]
        decide
      · rw [acceptsAmount, Bool.or_eq_true]
        right
        cases hasDot with
        | false =>
          have hall : ∀ a ∈ ds1 ++ ds2, a.isDigit = true := by
            intro a ha
            rcases List.mem_append.mp ha with h | h
            · exact h1 a h
            · exact h2 a h
          apply regexTest_nil_dropWhile
          rw [hs, if_neg Bool.false_ne_true, List.append_nil]
          exact List.dropWhile_eq_nil_iff.mpr hall
        | true =>
          have hdw : value.toList.dropWhile Char.isDigit = '.' :: ds2 := by
            rw [hs, if_pos rfl, List.append_assoc, List.dropWhile_append_of_pos h1,
              List.singleton_append, List.dropWhile_cons]
            simp
          rw [regexTest_cons_dropWhile _ '.' ds2 hdw]
          simp only [Bool.and_eq_true, beq_self_eq_true, true_and, List.all_eq_true]
          exact h2
  · intro prev value hacc
    rw [handleAmountChange, if_pos hacc]
  · intro prev value hacc
    rw [handleAmountChange, if_neg (by rw [hacc]; exact Bool.false_ne_true)]

/-- Witness for C8: concrete accepted and rejected keystrokes. -/
theorem C8_amount_input_masking_witness :
    handleAmountChange "0" "12.34" = "12.34" ∧ handleAmountChange "0" "12.3.4" = "0" ∧
      maskSpec "12.34" :=
  ⟨C8_amount_input_masking.2.1 "0" "12.34" (by decide),
    C8_amount_input_masking.2.2.1 "0" "12.3.4" (by decide),
    (C8_amount_input_masking.1 "12.34").mp (by decide)⟩

end SwapRepo
